import Mathlib

/-!
# Verification of the comtensor validator pipeline

Shallow embedding of `src/comtensor/validator/validator.py` and proofs about
its polling / scoring / normalization pipeline.

Modelling conventions:
* Python floats are modelled as rationals (`ℚ`); the arithmetic the claims are
  about (sums, products, divisions, `int()` truncation) is exact there.
* Python dicts are modelled as association lists in insertion order; on lists
  with pairwise-distinct keys this is a faithful model of dict construction,
  iteration and membership.
* Python's `sorted(..., key=lambda x: x[1], reverse=True)` is a stable sort by
  descending score; a stable sort's output is unique, so it is modelled by a
  stable insertion sort (`sortDesc`).
* Fallible Python code is modelled with `Except`: an `Except.error` value
  stands for the exception the Python code raises at that point.
-/

namespace ComtensorValidator

/-- Python `int(q)` applied to a rational: truncation toward zero
(`int(2.7) = 2`, `int(-2.7) = -2`). -/
def pyInt (q : ℚ) : ℤ := if 0 ≤ q then ⌊q⌋ else -⌊-q⌋

/-- One entry of a score dict: a miner uid paired with its score. -/
abbrev ScoreEntry : Type := Nat × ℚ

/-- The descending comparison used by `set_weights`' sort: `a` may stay in
front of `b` when `b`'s score is at most `a`'s. -/
def descLe (a b : ScoreEntry) : Prop := b.2 ≤ a.2

instance : DecidableRel descLe := fun a b => inferInstanceAs (Decidable (b.2 ≤ a.2))

/-- Insert an entry into a score list, skipping over strictly larger scores and
stopping at the first score that is at most its own.  Together with `sortDesc`
this realizes the stable descending sort performed in Python by
`sorted(score_dict.items(), key=lambda x: x[1], reverse=True)`. -/
def insertDesc (a : ScoreEntry) : List ScoreEntry → List ScoreEntry
  | [] => [a]
  | b :: l => if a.2 < b.2 then b :: insertDesc a l else a :: b :: l

/-- Stable sort by descending score (see `insertDesc`). -/
def sortDesc : List ScoreEntry → List ScoreEntry
  | [] => []
  | a :: l => insertDesc a (sortDesc l)

/-- `cut_to_max_allowed_weights` (validator.py:95-114): stable-sort the score
dict by descending score and keep the first `max_allowed_weights` entries.
The final `dict(cut_scores)` is the identity on entry lists whose keys are
pairwise distinct. -/
def cut_to_max_allowed_weights (score_dict : List ScoreEntry)
    (max_allowed_weights : Nat) : List ScoreEntry :=
  (sortDesc score_dict).take max_allowed_weights

/-- The body of `set_weights` (validator.py:47-92).  After the cut, the code
computes `scores = sum(score_dict.values())` and, for every kept entry,
`weight = int(score * 1000 / scores)`, finally dropping zero weights.
`Except.error ()` models the uncaught `ZeroDivisionError` raised on the first
loop iteration when the kept entries are non-empty but their scores sum to
zero.  `Except.ok w` means the function reaches its last line and calls
`client.vote(key, uids, weights, netuid)` with `uids = w.map Prod.fst` and
`weights = w.map Prod.snd`; the vote call is issued even when `w` is empty. -/
def set_weights (max_allowed_weights : Nat) (score_dict : List ScoreEntry) :
    Except Unit (List (Nat × ℤ)) :=
  let cut := cut_to_max_allowed_weights score_dict max_allowed_weights
  let scores : ℚ := (cut.map Prod.snd).sum
  if cut.isEmpty then Except.ok []
  else if scores = 0 then Except.error ()
  else Except.ok
    ((cut.map (fun p => (p.1, pyInt (p.2 * 1000 / scores)))).filter
      (fun p => p.2 ≠ 0))

/-! ## Lemmas about the stable descending sort -/

theorem insertDesc_perm (a : ScoreEntry) (l : List ScoreEntry) :
    List.Perm (insertDesc a l) (a :: l) := by
  induction l with
  | nil => rfl
  | cons b l ih =>
    unfold insertDesc
    by_cases h : a.2 < b.2
    · simpa [h] using ((ih.cons b).trans (List.Perm.swap a b l))
    · simp [h]

theorem sortDesc_perm (l : List ScoreEntry) : List.Perm (sortDesc l) l := by
  induction l with
  | nil => rfl
  | cons a l ih => exact (insertDesc_perm a (sortDesc l)).trans (ih.cons a)

theorem sortDesc_length (l : List ScoreEntry) : (sortDesc l).length = l.length :=
  (sortDesc_perm l).length_eq

theorem mem_insertDesc {x a : ScoreEntry} {l : List ScoreEntry} :
    x ∈ insertDesc a l ↔ x = a ∨ x ∈ l := by
  rw [(insertDesc_perm a l).mem_iff, List.mem_cons]

theorem insertDesc_pairwise {a : ScoreEntry} {l : List ScoreEntry}
    (h : l.Pairwise descLe) : (insertDesc a l).Pairwise descLe := by
  induction l with
  | nil => simp [insertDesc, descLe]
  | cons b l ih =>
    rw [List.pairwise_cons] at h
    unfold insertDesc
    by_cases hab : a.2 < b.2
    · rw [if_pos hab, List.pairwise_cons]
      refine ⟨fun x hx => ?_, ih h.2⟩
      rcases mem_insertDesc.mp hx with rfl | hx
      · exact le_of_lt hab
      · exact h.1 x hx
    · rw [if_neg hab, List.pairwise_cons]
      push_neg at hab
      refine ⟨fun x hx => ?_, List.pairwise_cons.mpr h⟩
      rcases List.mem_cons.mp hx with rfl | hx
      · exact hab
      · exact le_trans (h.1 x hx) hab

theorem sortDesc_pairwise (l : List ScoreEntry) : (sortDesc l).Pairwise descLe := by
  induction l with
  | nil => exact List.Pairwise.nil
  | cons a l ih => exact insertDesc_pairwise ih

/-- `insertDesc` splits its input at the first score that is at most `a.2`. -/
theorem insertDesc_eq_append (a : ScoreEntry) (l : List ScoreEntry) :
    ∃ l₁ l₂, l = l₁ ++ l₂ ∧ insertDesc a l = l₁ ++ a :: l₂ ∧
      ∀ b ∈ l₁, a.2 < b.2 := by
  induction l with
  | nil => exact ⟨[], [], rfl, rfl, by simp⟩
  | cons b l ih =>
    by_cases hab : a.2 < b.2
    · obtain ⟨l₁, l₂, hl, hins, hgt⟩ := ih
      refine ⟨b :: l₁, l₂, by simp [hl], ?_, ?_⟩
      · simp [insertDesc, if_pos hab, hins]
      · intro c hc
        rcases List.mem_cons.mp hc with rfl | hc
        · exact hab
        · exact hgt c hc
    · exact ⟨[], b :: l, rfl, by simp [insertDesc, if_neg hab], by simp⟩

theorem sublist_insertDesc (a : ScoreEntry) {c l : List ScoreEntry}
    (h : List.Sublist c l) : List.Sublist c (insertDesc a l) := by
  obtain ⟨l₁, l₂, hl, hins, -⟩ := insertDesc_eq_append a l
  rw [hins]
  exact (hl ▸ h).trans ((l₂.sublist_cons_self a).append_left l₁)

theorem cons_sublist_insertDesc {a : ScoreEntry} {c l : List ScoreEntry}
    (hc : ∀ x ∈ c, x.2 ≤ a.2) (h : List.Sublist c l) : List.Sublist (a :: c) (insertDesc a l) := by
  obtain ⟨l₁, l₂, hl, hins, hgt⟩ := insertDesc_eq_append a l
  subst hl
  rw [hins]
  rw [List.sublist_append_iff] at h
  obtain ⟨c₁, c₂, rfl, h₁, h₂⟩ := h
  have hc₁ : c₁ = [] := by
    cases c₁ with
    | nil => rfl
    | cons x c₁ =>
      exact absurd (hc x (by simp))
        (not_le.mpr (hgt x (h₁.subset (by simp))))
  subst hc₁
  simp only [List.nil_append]
  exact ((h₂.cons₂ a).trans (List.sublist_append_right l₁ (a :: l₂)))

/-- Stability of the descending sort: a sub-chain that is already descending
stays a sub-chain of the sorted output. -/
theorem sublist_sortDesc {c l : List ScoreEntry} (hc : c.Pairwise descLe)
    (h : List.Sublist c l) : List.Sublist c (sortDesc l) := by
  induction h with
  | slnil => exact List.Sublist.refl _
  | cons a h ih => exact sublist_insertDesc a (ih hc)
  | cons₂ a h ih =>
    rw [List.pairwise_cons] at hc
    exact cons_sublist_insertDesc (fun x hx => hc.1 x hx) (ih hc.2)

/-! ## Facts shared by the normalization claims -/

theorem mem_of_mem_cut {p : ScoreEntry} {sd : List ScoreEntry} {k : Nat}
    (h : p ∈ cut_to_max_allowed_weights sd k) : p ∈ sd :=
  (sortDesc_perm sd).mem_iff.mp (List.take_subset _ _ h)

theorem set_weights_eq (k : Nat) (sd : List ScoreEntry) :
    set_weights k sd =
      if (cut_to_max_allowed_weights sd k).isEmpty then Except.ok []
      else if ((cut_to_max_allowed_weights sd k).map Prod.snd).sum = (0 : ℚ) then
        Except.error ()
      else Except.ok
        (((cut_to_max_allowed_weights sd k).map (fun p =>
            (p.1, pyInt (p.2 * 1000 /
              ((cut_to_max_allowed_weights sd k).map Prod.snd).sum)))).filter
          (fun p => p.2 ≠ 0)) := rfl

theorem pyInt_eq_floor {q : ℚ} (h : 0 ≤ q) : pyInt q = ⌊q⌋ := if_pos h

/-- Dropping the zero entries does not change the sum of the weights. -/
theorem sum_snd_filter_ne_zero (w : List (Nat × ℤ)) :
    ((w.filter (fun p => p.2 ≠ 0)).map Prod.snd).sum = (w.map Prod.snd).sum := by
  induction w with
  | nil => rfl
  | cons p w ih =>
    by_cases h : p.2 = 0
    · rw [List.filter_cons_of_neg (by simp [h]), List.map_cons, List.sum_cons, h,
        zero_add, ih]
    · rw [List.filter_cons_of_pos (by simp [h]), List.map_cons, List.map_cons,
        List.sum_cons, List.sum_cons, ih]

theorem cast_sum_floor_le (l : List ℚ) :
    (((l.map (fun q => ⌊q⌋)).sum : ℤ) : ℚ) ≤ l.sum := by
  induction l with
  | nil => simp
  | cons q l ih =>
    simp only [List.map_cons, List.sum_cons, Int.cast_add]
    exact add_le_add (Int.floor_le q) ih

/-- C1: for every score map of non-negative scores, a successful run of the
normalization inside `set_weights` emits at most `max_allowed_weights`
entries, none of them zero; and when the kept scores have positive total the
emitted map is exactly the kept entries weighted by
`floor(score * 1000 / total)` with the zero weights dropped, every emitted
weight is strictly positive, and the emitted weights sum to at most 1000. -/
theorem set_weights_normalized_weights (k : Nat) (sd : List ScoreEntry)
    (hnn : ∀ p ∈ sd, 0 ≤ p.2) (w : List (Nat × ℤ))
    (hok : set_weights k sd = Except.ok w) :
    w.length ≤ k ∧ (∀ p ∈ w, p.2 ≠ 0) ∧
      (0 < ((cut_to_max_allowed_weights sd k).map Prod.snd).sum →
        w = ((cut_to_max_allowed_weights sd k).map (fun p =>
              (p.1, ⌊p.2 * 1000 /
                ((cut_to_max_allowed_weights sd k).map Prod.snd).sum⌋))).filter
            (fun p => p.2 ≠ 0) ∧
        (∀ p ∈ w, 0 < p.2) ∧ (w.map Prod.snd).sum ≤ 1000) := by
  rw [set_weights_eq] at hok
  by_cases h1 : (cut_to_max_allowed_weights sd k).isEmpty
  · rw [if_pos h1] at hok
    simp only [Except.ok.injEq] at hok
    subst hok
    have hcut : cut_to_max_allowed_weights sd k = [] := List.isEmpty_iff.mp h1
    refine ⟨by simp, by simp, fun hpos => absurd hpos ?_⟩
    rw [hcut]
    simp
  · by_cases h2 : ((cut_to_max_allowed_weights sd k).map Prod.snd).sum = (0 : ℚ)
    · rw [if_neg h1, if_pos h2] at hok
      exact absurd hok (by simp)
    · rw [if_neg h1, if_neg h2] at hok
      simp only [Except.ok.injEq] at hok
      subst hok
      have hmemnn : ∀ p ∈ cut_to_max_allowed_weights sd k, 0 ≤ p.2 :=
        fun p hp => hnn p (mem_of_mem_cut hp)
      have hsnn : (0 : ℚ) ≤ ((cut_to_max_allowed_weights sd k).map Prod.snd).sum := by
        refine List.sum_nonneg fun x hx => ?_
        obtain ⟨p, hp, rfl⟩ := List.mem_map.mp hx
        exact hmemnn p hp
      have hspos : (0 : ℚ) < ((cut_to_max_allowed_weights sd k).map Prod.snd).sum :=
        lt_of_le_of_ne hsnn (Ne.symm h2)
      have hargnn : ∀ p ∈ cut_to_max_allowed_weights sd k,
          0 ≤ p.2 * 1000 / ((cut_to_max_allowed_weights sd k).map Prod.snd).sum :=
        fun p hp => div_nonneg (mul_nonneg (hmemnn p hp) (by norm_num)) hspos.le
      have hmapeq :
          (cut_to_max_allowed_weights sd k).map (fun p =>
              (p.1, pyInt (p.2 * 1000 /
                ((cut_to_max_allowed_weights sd k).map Prod.snd).sum))) =
          (cut_to_max_allowed_weights sd k).map (fun p =>
              (p.1, ⌊p.2 * 1000 /
                ((cut_to_max_allowed_weights sd k).map Prod.snd).sum⌋)) :=
        List.map_congr_left fun p hp => by rw [pyInt_eq_floor (hargnn p hp)]
      refine ⟨?_, ?_, fun _ => ⟨by rw [hmapeq], ?_, ?_⟩⟩
      · calc _ ≤ ((cut_to_max_allowed_weights sd k).map (fun p =>
              (p.1, pyInt (p.2 * 1000 /
                ((cut_to_max_allowed_weights sd k).map Prod.snd).sum)))).length :=
              List.length_filter_le _ _
          _ = (cut_to_max_allowed_weights sd k).length := List.length_map _ _
          _ ≤ k := by
              rw [cut_to_max_allowed_weights, List.length_take]
              exact min_le_left _ _
      · intro p hp
        have := (List.mem_filter.mp hp).2
        simpa using this
      · intro p hp
        obtain ⟨hp1, hp2⟩ := List.mem_filter.mp hp
        obtain ⟨q, hq, rfl⟩ := List.mem_map.mp hp1
        have hge : (0 : ℤ) ≤ pyInt (q.2 * 1000 /
            ((cut_to_max_allowed_weights sd k).map Prod.snd).sum) := by
          rw [pyInt_eq_floor (hargnn q hq)]
          exact Int.floor_nonneg.mpr (hargnn q hq)
        have hne : pyInt (q.2 * 1000 /
            ((cut_to_max_allowed_weights sd k).map Prod.snd).sum) ≠ 0 := by
          simpa using hp2
        exact lt_of_le_of_ne hge (Ne.symm hne)
      · rw [sum_snd_filter_ne_zero, hmapeq]
        have hcast :
            ((((cut_to_max_allowed_weights sd k).map (fun p =>
                (p.1, ⌊p.2 * 1000 /
                  ((cut_to_max_allowed_weights sd k).map Prod.snd).sum⌋))).map
              Prod.snd).sum : ℚ) ≤ 1000 := by
          rw [List.map_map]
          have heq : (Prod.snd ∘ fun p : ScoreEntry =>
              (p.1, ⌊p.2 * 1000 /
                ((cut_to_max_allowed_weights sd k).map Prod.snd).sum⌋)) =
              (fun q : ℚ => ⌊q⌋) ∘ (fun p : ScoreEntry =>
                p.2 * 1000 / ((cut_to_max_allowed_weights sd k).map Prod.snd).sum) :=
            rfl
          rw [heq, ← List.map_map]
          refine le_trans (cast_sum_floor_le _) ?_
          have hdist : ((cut_to_max_allowed_weights sd k).map (fun p : ScoreEntry =>
              p.2 * 1000 / ((cut_to_max_allowed_weights sd k).map Prod.snd).sum)).sum =
              ((cut_to_max_allowed_weights sd k).map Prod.snd).sum *
                (1000 / ((cut_to_max_allowed_weights sd k).map Prod.snd).sum) := by
            rw [← List.sum_map_mul_right]
            exact congrArg List.sum (List.map_congr_left fun p _ => mul_div_assoc _ _ _)
          rw [hdist, ← mul_div_assoc, mul_comm, mul_div_assoc,
            div_self h2, mul_one]
        exact_mod_cast hcast

/-- C1 witness: on the score map `{1 ↦ 3/10, 2 ↦ 7/10}` with ceiling 420 the
emitted weights are `{2 ↦ 700, 1 ↦ 300}` and sum to at most 1000. -/
theorem set_weights_normalized_weights_witness :
    ([((2 : Nat), (700 : ℤ)), (1, 300)].map Prod.snd).sum ≤ 1000 :=
  ((set_weights_normalized_weights 420 [(1, 3/10), (2, 7/10)]
      (by norm_num) [(2, 700), (1, 300)]
      (by
        rw [set_weights_eq]
        norm_num [cut_to_max_allowed_weights, sortDesc, insertDesc,
          List.take_of_length_le, pyInt])).2.2
    (by norm_num [cut_to_max_allowed_weights, sortDesc, insertDesc,
      List.take_of_length_le])).2.2

/-- C2 counterexample: on the non-empty score map `{1 ↦ 0}`, whose kept scores
sum to zero, the normalization does not return an empty weight map: it raises
an uncaught `ZeroDivisionError` (the `Except.error` branch of the model). -/
theorem set_weights_zero_total_raises :
    set_weights 420 [((1 : Nat), (0 : ℚ))] = Except.error () := by
  rw [set_weights_eq]
  norm_num [cut_to_max_allowed_weights, sortDesc, insertDesc,
    List.take_of_length_le]

/-- C2 (amended): when the kept scores sum to zero, `set_weights` returns the
empty weight map only when the cut score map is itself empty (then no division
is attempted and `client.vote` is called with empty lists); when the cut score
map is non-empty with zero total it raises `ZeroDivisionError` instead, which
propagates out of the round. -/
theorem set_weights_zero_total (k : Nat) (sd : List ScoreEntry)
    (hz : ((cut_to_max_allowed_weights sd k).map Prod.snd).sum = 0) :
    set_weights k sd =
      if (cut_to_max_allowed_weights sd k).isEmpty then Except.ok []
      else Except.error () := by
  rw [set_weights_eq]
  by_cases h : (cut_to_max_allowed_weights sd k).isEmpty
  · rw [if_pos h, if_pos h]
  · rw [if_neg h, if_neg h, if_pos hz]

/-- C2 witness: the amended statement evaluated on the zero score map
`{1 ↦ 0, 2 ↦ 0}`. -/
theorem set_weights_zero_total_witness :
    set_weights 420 [((1 : Nat), (0 : ℚ)), (2, 0)] = Except.error () := by
  rw [set_weights_zero_total 420 [((1 : Nat), (0 : ℚ)), (2, 0)]
    (by norm_num [cut_to_max_allowed_weights, sortDesc, insertDesc,
      List.take_of_length_le])]
  norm_num [cut_to_max_allowed_weights, sortDesc, insertDesc,
    List.take_of_length_le]

/-- C4: with pairwise-distinct uids, `cut_to_max_allowed_weights` keeps
exactly `min max_allowed_weights n` of the `n` entries, each kept entry comes
from the input, every dropped entry scores no higher than every kept entry,
and whenever an entry is kept, every entry appearing earlier in the input with
a score at least as high is kept as well (stable descending sort; applied to
500 scored peers and a ceiling of 420 this keeps exactly the 420
highest-scoring peers). -/
theorem cut_keeps_top_scores (sd : List ScoreEntry) (k : Nat)
    (hkeys : (sd.map Prod.fst).Nodup) :
    (cut_to_max_allowed_weights sd k).length = min k sd.length ∧
    (∀ p ∈ cut_to_max_allowed_weights sd k, p ∈ sd) ∧
    (∀ p ∈ sd, p ∉ cut_to_max_allowed_weights sd k →
      ∀ q ∈ cut_to_max_allowed_weights sd k, p.2 ≤ q.2) ∧
    (∀ i j : Fin sd.length, (i : Nat) < (j : Nat) →
      (sd.get j).2 ≤ (sd.get i).2 →
      sd.get j ∈ cut_to_max_allowed_weights sd k →
      sd.get i ∈ cut_to_max_allowed_weights sd k) := by
  have hnd : sd.Nodup := List.Nodup.of_map _ hkeys
  have hLnd : (sortDesc sd).Nodup := ((sortDesc_perm sd).nodup_iff).mpr hnd
  have hpair := sortDesc_pairwise sd
  refine ⟨?_, fun p hp => mem_of_mem_cut hp, ?_, ?_⟩
  · rw [cut_to_max_allowed_weights, List.length_take, sortDesc_length]
  · intro p hp hnot q hq
    have hp' : p ∈ sortDesc sd := (sortDesc_perm sd).mem_iff.mpr hp
    rw [← List.take_append_drop k (sortDesc sd), List.mem_append] at hp'
    have hdrop : p ∈ List.drop k (sortDesc sd) := hp'.resolve_left hnot
    have hsplit := List.pairwise_append.mp
      (by rw [List.take_append_drop k (sortDesc sd)]; exact hpair)
    exact hsplit.2.2 q hq p hdrop
  · intro i j hij hscore hjmem
    have hpairsub : List.Sublist [sd.get i, sd.get j] sd := by
      have hpw : List.Pairwise (fun x1 x2 : Fin sd.length => x1 < x2) [i, j] := by
        refine List.pairwise_cons.mpr ⟨?_, by simp⟩
        intro b hb
        rw [List.mem_singleton] at hb
        subst hb
        exact Fin.lt_def.mpr hij
      have h := @List.map_getElem_sublist ScoreEntry sd [i, j] hpw
      simpa [List.get_eq_getElem] using h
    have hchain : List.Pairwise descLe [sd.get i, sd.get j] := by
      refine List.pairwise_cons.mpr ⟨?_, by simp⟩
      intro b hb
      rw [List.mem_singleton] at hb
      subst hb
      exact hscore
    have hsub : List.Sublist [sd.get i, sd.get j] (sortDesc sd) :=
      sublist_sortDesc hchain hpairsub
    obtain ⟨is, hmap, hinc⟩ := List.sublist_eq_map_getElem hsub
    obtain ⟨ia, ib, rfl⟩ : ∃ ia ib, is = [ia, ib] := by
      cases is with
      | nil => simp at hmap
      | cons ia is2 =>
        cases is2 with
        | nil => simp at hmap
        | cons ib is3 =>
          cases is3 with
          | nil => exact ⟨ia, ib, rfl⟩
          | cons x is4 => simp at hmap
    simp only [List.map_cons, List.map_nil, List.cons.injEq, and_true,
      Fin.getElem_fin] at hmap
    obtain ⟨ha, hb⟩ := hmap
    have hab : (ia : Nat) < (ib : Nat) := by
      have := List.pairwise_cons.mp hinc
      exact this.1 ib (by simp)
    obtain ⟨m, hm⟩ := List.mem_iff_get.mp hjmem
    have hmlen : (m : Nat) < min k (sortDesc sd).length := by
      have := m.2
      simpa only [cut_to_max_allowed_weights, List.length_take] using this
    have hmk : (m : Nat) < k := lt_of_lt_of_le hmlen (min_le_left _ _)
    have hmL : (m : Nat) < (sortDesc sd).length :=
      lt_of_lt_of_le hmlen (min_le_right _ _)
    have hmget : (sortDesc sd)[(m : Nat)] = sd.get j := by
      rw [← hm]
      simp only [cut_to_max_allowed_weights, List.get_eq_getElem,
        List.getElem_take]
    have hib : (ib : Nat) = (m : Nat) := by
      have hgets : (sortDesc sd).get ⟨m, hmL⟩ = (sortDesc sd).get ib := by
        simp only [List.get_eq_getElem]
        rw [hmget, hb]
      have := (hLnd.get_inj_iff).mp hgets
      exact congrArg Fin.val this.symm
    have hiak : (ia : Nat) < k := by omega
    have hialt : (ia : Nat) < (List.take k (sortDesc sd)).length := by
      rw [List.length_take]
      exact lt_min hiak ia.2
    have htake : (List.take k (sortDesc sd)).get ⟨ia, hialt⟩ = sd.get i := by
      simp only [List.get_eq_getElem, List.getElem_take]
      exact ha.symm
    show sd.get i ∈ List.take k (sortDesc sd)
    rw [← htake]
    exact List.get_mem _ _ _

/-- C4 witness: cutting five distinctly-keyed scored peers to a ceiling of
three keeps exactly three entries. -/
theorem cut_keeps_top_scores_witness :
    (cut_to_max_allowed_weights
        [(1, (1 : ℚ)), (2, 5), (3, 3), (4, 3), (5, 2)] 3).length =
      min 3 ([(1, (1 : ℚ)), (2, 5), (3, 3), (4, 3), (5, 2)]).length :=
  (cut_keeps_top_scores [(1, (1 : ℚ)), (2, 5), (3, 3), (4, 3), (5, 2)] 3
    (by decide)).1

/-! ## Similarity scoring: `_score_miner` and the three `calculate_*_scores`
methods (validator.py:261-313)

The two string-similarity libraries that are pure total functions of their
two arguments (`jellyfish.jaro_winkler_similarity` and
`difflib.SequenceMatcher(...).ratio()`) enter the model as parameters `jw`
and `rat`; their documented range `[0, 1]` becomes a hypothesis where a
claim needs it.  The dice measure is modelled concretely — vectorization,
integer count vectors, and scipy's arithmetic including its NaN result on
two all-zero vectors — because that behaviour decides claims C5, C6 and
C10.  A float NaN is modelled as `none : Option ℚ`; like a NaN it is
absorbing for the arithmetic it meets. -/

/-- State of the whitespace-collapsing scanner: outside whitespace, exactly
one pending whitespace character `w`, or inside a run already emitted as a
single space. -/
inductive WSState where
  | outside : WSState
  | pending : Char → WSState
  | inRun : WSState

/-- `CountVectorizer`'s char analyzer first normalizes whitespace:
`_white_spaces = re.compile(r"\s\s+")` and `sub(" ", doc)` replace every
maximal run of two or more whitespace characters by one space, while a
single whitespace character is kept unchanged. -/
def collapseWSAux : WSState → List Char → List Char
  | WSState.outside, [] => []
  | WSState.pending w, [] => [w]
  | WSState.inRun, [] => []
  | WSState.outside, c :: rest =>
    if c.isWhitespace then collapseWSAux (WSState.pending c) rest
    else c :: collapseWSAux WSState.outside rest
  | WSState.pending w, c :: rest =>
    if c.isWhitespace then ' ' :: collapseWSAux WSState.inRun rest
    else w :: c :: collapseWSAux WSState.outside rest
  | WSState.inRun, c :: rest =>
    if c.isWhitespace then collapseWSAux WSState.inRun rest
    else c :: collapseWSAux WSState.outside rest

/-- The preprocessing `CountVectorizer(analyzer='char', ngram_range=(2, 2))`
applies to each document before extracting bigrams: the default
`lowercase=True`, then the char analyzer's whitespace collapsing.  Case
mapping and the whitespace class are modelled on their ASCII common subset,
as with the ASCII reading of `\d` in the address regex. -/
def pyPreprocess (s : String) : List Char :=
  collapseWSAux WSState.outside (s.data.map Char.toLower)

/-- The character-bigram occurrences of one preprocessed document, with
multiplicity: the document's row of the `CountVectorizer` count matrix is
`fun g => (bigramList s).count g` over the corpus vocabulary. -/
def bigramList (s : String) : List (Char × Char) :=
  (pyPreprocess s).zip (pyPreprocess s).tail

/-- The vocabulary the vectorizer builds from the whole answer list: every
bigram occurring in some document. -/
def vocabulary (strings : List String) : Finset (Char × Char) :=
  strings.foldr (fun s acc => (bigramList s).toFinset ∪ acc) ∅

/-- `scipy.spatial.distance.dice` on the two documents' integer count
vectors over the vocabulary `vocab` (the code's `X[i]`, `X[j]` rows).  On
non-boolean input scipy multiplies the vectors: `ntt = Σ u·v`,
`ntf = Σ u·(1 − v)`, `nft = Σ (1 − u)·v`, and the dissimilarity is
`(ntf + nft) / (2·ntt + ntf + nft)`.  The denominator equals `Σ u + Σ v`,
so it is zero exactly when both count vectors are all zero; numpy then
evaluates `0/0` to NaN (with a warning, not an exception) — modelled as
`none`. -/
def diceDissim (vocab : Finset (Char × Char)) (a b : String) : Option ℚ :=
  let cu : Char × Char → ℚ := fun g => ((bigramList a).count g : ℚ)
  let cv : Char × Char → ℚ := fun g => ((bigramList b).count g : ℚ)
  let ntt : ℚ := ∑ g ∈ vocab, cu g * cv g
  let ntf : ℚ := ∑ g ∈ vocab, cu g * (1 - cv g)
  let nft : ℚ := ∑ g ∈ vocab, (1 - cu g) * cv g
  if 2 * ntt + ntf + nft = 0 then none
  else some ((ntf + nft) / (2 * ntt + ntf + nft))

/-- The per-pair value the dice loop accumulates: `1 - dice(X[i], X[j])`,
NaN-propagating. -/
def dicePairSim (vocab : Finset (Char × Char)) (a b : String) : Option ℚ :=
  (diceDissim vocab a b).map fun d => 1 - d

/-- The common double loop of the three `calculate_*_scores` methods:
`scores[i]` accumulates `similarity(i, j) * 0.1` over `j = 0, ..., n-1`,
skipping `j = i`. -/
def pairAggregate (sim : Nat → Nat → ℚ) (n i : Nat) : ℚ :=
  (List.range n).foldl
    (fun acc j => if i ≠ j then acc + sim i j * (1 / 10) else acc) 0

/-- The `scores` list produced by one `calculate_*_scores` double loop. -/
def pairwiseScores (sim : Nat → Nat → ℚ) (n : Nat) : List ℚ :=
  (List.range n).map (pairAggregate sim n)

/-- The dice double loop with NaN propagation: `scores[i] += sim * 0.1`
turns the whole accumulator into NaN as soon as one pairwise similarity is
NaN, since NaN is absorbing for float addition and multiplication. -/
def pairAggregateOpt (sim : Nat → Nat → Option ℚ) (n i : Nat) : Option ℚ :=
  (List.range n).foldl
    (fun acc j =>
      if i ≠ j then
        match acc, sim i j with
        | some a, some s => some (a + s * (1 / 10))
        | _, _ => none
      else acc) (some 0)

/-- The `scores` list of the dice double loop. -/
def pairwiseScoresOpt (sim : Nat → Nat → Option ℚ) (n : Nat) :
    List (Option ℚ) :=
  (List.range n).map (pairAggregateOpt sim n)

/-- `calculate_jaro_winkler_scores` (validator.py:261-269); the external
`jellyfish.jaro_winkler_similarity` is the parameter `jw`. -/
def calculate_jaro_winkler_scores (jw : String → String → ℚ)
    (strings : List String) : List ℚ :=
  pairwiseScores (fun i j => jw (strings.getD i "") (strings.getD j ""))
    strings.length

/-- `calculate_dice_similarity_scores` (validator.py:271-281).
`CountVectorizer.fit_transform` raises `ValueError("empty vocabulary; ...")`
when no document contributes a bigram — in particular on an empty input
list; `Except.error ()` models that uncaught exception.  Otherwise each
`scores[i]` sums `(1 - dice(X[i], X[j])) * 0.1` over `j ≠ i` on the count
vectors, i.e. `pairAggregateOpt` of `dicePairSim` over the corpus
vocabulary. -/
def calculate_dice_similarity_scores (strings : List String) :
    Except Unit (List (Option ℚ)) :=
  if vocabulary strings = ∅ then Except.error ()
  else Except.ok (pairwiseScoresOpt (fun i j =>
    dicePairSim (vocabulary strings) (strings.getD i "") (strings.getD j ""))
    strings.length)

/-- `calculate_ratcliff_obershelp_scores` (validator.py:283-291); the
external `difflib.SequenceMatcher(None, a, b).ratio()` is the parameter
`rat`. -/
def calculate_ratcliff_obershelp_scores (rat : String → String → ℚ)
    (strings : List String) : List ℚ :=
  pairwiseScores (fun i j => rat (strings.getD i "") (strings.getD j ""))
    strings.length

/-- `_score_miner` (validator.py:294-313): the three per-measure score lists
are combined, entry by entry of `enumerate(miner_time)`, into
`(jaro[i] + dice[i] + ratcliff[i]) / 3 * 0.8 + (1 / max(time[i], 1)) * 0.2`,
keyed by `miner_uids[i]`.  A NaN in `dice[i]` makes the whole score NaN
(`Option.map`); an error from the dice vectorizer propagates.  The pipeline
always calls this with three parallel arrays of equal length. -/
def score_miner (jw rat : String → String → ℚ) (miner_res : List String)
    (miner_uids : List Nat) (miner_time : List ℚ) :
    Except Unit (List (Nat × Option ℚ)) :=
  (calculate_dice_similarity_scores miner_res).map (fun dice_scores =>
    (List.range miner_time.length).map (fun i =>
      (miner_uids.getD i 0,
        (dice_scores.getD i (some 0)).map (fun d =>
          ((calculate_jaro_winkler_scores jw miner_res).getD i 0 + d +
              (calculate_ratcliff_obershelp_scores rat miner_res).getD i 0)
            / 3 * (8 / 10) +
          (1 / max (miner_time.getD i 0) 1) * (2 / 10)))))

/-! ## Lemmas about the scoring loops -/

theorem pairAggregate_eq_sum (sim : Nat → Nat → ℚ) (n i : Nat) :
    pairAggregate sim n i = ∑ j ∈ Finset.range n \ {i}, sim i j * (1 / 10) := by
  induction n with
  | zero => simp [pairAggregate]
  | succ n ih =>
    have hfold : pairAggregate sim (n + 1) i =
        if i ≠ n then pairAggregate sim n i + sim i n * (1 / 10)
        else pairAggregate sim n i := by
      rw [pairAggregate, List.range_succ, List.foldl_append]
      rfl
    by_cases hin : i = n
    · subst hin
      rw [hfold, if_neg (by simp), ih, Finset.range_succ,
        Finset.insert_sdiff_of_mem _ (Finset.mem_singleton_self i)]
    · rw [hfold, if_pos hin, ih, Finset.range_succ,
        Finset.insert_sdiff_of_not_mem _ (by simp [Ne.symm hin]),
        Finset.sum_insert (by simp), add_comm]

theorem pairwiseScores_getD {n i : Nat} (sim : Nat → Nat → ℚ) (h : i < n) :
    (pairwiseScores sim n).getD i 0 = pairAggregate sim n i := by
  rw [pairwiseScores,
    List.getD_eq_getElem _ _ (by simpa using h), List.getElem_map,
    List.getElem_range]

theorem pairwiseScores_getD_nonneg (sim : Nat → Nat → ℚ) (n i : Nat)
    (h : ∀ j, 0 ≤ sim i j) : 0 ≤ (pairwiseScores sim n).getD i 0 := by
  by_cases hi : i < n
  · rw [pairwiseScores_getD sim hi, pairAggregate_eq_sum]
    exact Finset.sum_nonneg fun j _ => mul_nonneg (h j) (by norm_num)
  · rw [List.getD_eq_default]
    simp only [pairwiseScores, List.length_map, List.length_range]
    omega

/-- The fold of the dice double loop, described as a guarded sum: the
aggregate is the sum of the defined pairwise values unless one of them is
NaN, in which case it is NaN. -/
theorem pairAggregateOpt_eq_sum (sim : Nat → Nat → Option ℚ) (n i : Nat) :
    pairAggregateOpt sim n i =
      if ∀ j ∈ Finset.range n \ {i}, (sim i j).isSome then
        some (∑ j ∈ Finset.range n \ {i}, (sim i j).getD 0 * (1 / 10))
      else none := by
  induction n with
  | zero => simp [pairAggregateOpt]
  | succ n ih =>
    have hfold : pairAggregateOpt sim (n + 1) i =
        if i ≠ n then
          match pairAggregateOpt sim n i, sim i n with
          | some a, some s => some (a + s * (1 / 10))
          | _, _ => none
        else pairAggregateOpt sim n i := by
      rw [pairAggregateOpt, List.range_succ, List.foldl_append]
      rfl
    by_cases hin : i = n
    · subst hin
      rw [hfold, if_neg (by simp), ih, Finset.range_succ,
        Finset.insert_sdiff_of_mem _ (Finset.mem_singleton_self i)]
    · rw [hfold, if_pos hin, ih, Finset.range_succ,
        Finset.insert_sdiff_of_not_mem _ (by simp [Ne.symm hin])]
      by_cases hall : ∀ j ∈ Finset.range n \ {i}, (sim i j).isSome
      · rw [if_pos hall]
        cases hsn : sim i n with
        | none =>
          have hnot : ¬ ∀ j ∈ insert n (Finset.range n \ {i}),
              (sim i j).isSome := by
            intro hforall
            have := hforall n (Finset.mem_insert_self _ _)
            rw [hsn] at this
            simp at this
          rw [if_neg hnot]
        | some s =>
          have hforall : ∀ j ∈ insert n (Finset.range n \ {i}),
              (sim i j).isSome := by
            rw [Finset.forall_mem_insert]
            exact ⟨by rw [hsn]; rfl, hall⟩
          rw [if_pos hforall, Finset.sum_insert (by simp), hsn]
          simp [Option.getD_some, add_comm]
      · rw [if_neg hall]
        have hnot : ¬ ∀ j ∈ insert n (Finset.range n \ {i}),
            (sim i j).isSome := by
          intro hforall
          exact hall fun j hj => hforall j (Finset.mem_insert_of_mem hj)
        rw [if_neg hnot]

theorem pairwiseScoresOpt_getD {n i : Nat} (sim : Nat → Nat → Option ℚ)
    (h : i < n) :
    (pairwiseScoresOpt sim n).getD i (some 0) = pairAggregateOpt sim n i := by
  rw [pairwiseScoresOpt,
    List.getD_eq_getElem _ _ (by simpa using h), List.getElem_map,
    List.getElem_range]

/-- Total count, over any feature set containing all of a document's
bigrams, of the document's bigram occurrences: the number of bigram
positions. -/
theorem sum_count_of_subset (l : List (Char × Char))
    (s : Finset (Char × Char)) (h : ∀ a ∈ l, a ∈ s) :
    ∑ g ∈ s, (l.count g : ℚ) = (l.length : ℚ) := by
  induction l with
  | nil => simp
  | cons a l ih =>
    have ha : a ∈ s := h a (by simp)
    have hrest : ∀ b ∈ l, b ∈ s := fun b hb => h b (by simp [hb])
    have hcount : ∀ g : Char × Char, ((a :: l).count g : ℚ) =
        (l.count g : ℚ) + if g = a then 1 else 0 := by
      intro g
      rw [List.count_cons]
      by_cases hga : g = a
      · subst hga
        simp
      · simp [hga, Ne.symm hga]
    rw [Finset.sum_congr rfl fun g _ => hcount g, Finset.sum_add_distrib,
      ih hrest, Finset.sum_ite_eq' s a (fun _ => (1 : ℚ)), if_pos ha,
      List.length_cons]
    push_cast
    ring

theorem vocabulary_cons (r : String) (res : List String) :
    vocabulary (r :: res) = (bigramList r).toFinset ∪ vocabulary res := rfl

theorem mem_vocabulary_of_mem {s : String} {res : List String} (hs : s ∈ res)
    {g : Char × Char} (hg : g ∈ bigramList s) : g ∈ vocabulary res := by
  induction res with
  | nil => cases hs
  | cons r res ih =>
    rw [vocabulary_cons]
    rcases List.mem_cons.mp hs with rfl | hs2
    · exact Finset.mem_union_left _ (List.mem_toFinset.mpr hg)
    · exact Finset.mem_union_right _ (ih hs2)

/-- When the first document has at least one bigram and all of its bigrams
are vocabulary features, the scipy denominator `Σu + Σv` is positive, so the
dice value is defined (no `0/0`), and the similarity `1 - dice` is
non-negative because the dissimilarity is at most 1 (the numerator falls
short of the denominator by `2·Σuv ≥ 0`). -/
theorem dicePairSim_defined_nonneg {vocab : Finset (Char × Char)}
    {a b : String} (ha : bigramList a ≠ [])
    (hsub : ∀ g ∈ bigramList a, g ∈ vocab) :
    ∃ s, dicePairSim vocab a b = some s ∧ 0 ≤ s := by
  have hntt : (0 : ℚ) ≤ ∑ g ∈ vocab,
      ((bigramList a).count g : ℚ) * ((bigramList b).count g : ℚ) :=
    Finset.sum_nonneg fun g _ =>
      mul_nonneg (Nat.cast_nonneg _) (Nat.cast_nonneg _)
  have hden : 2 * (∑ g ∈ vocab,
        ((bigramList a).count g : ℚ) * ((bigramList b).count g : ℚ)) +
      (∑ g ∈ vocab,
        ((bigramList a).count g : ℚ) * (1 - ((bigramList b).count g : ℚ))) +
      (∑ g ∈ vocab,
        (1 - ((bigramList a).count g : ℚ)) * ((bigramList b).count g : ℚ)) =
      (∑ g ∈ vocab, ((bigramList a).count g : ℚ)) +
        (∑ g ∈ vocab, ((bigramList b).count g : ℚ)) := by
    rw [Finset.mul_sum, ← Finset.sum_add_distrib, ← Finset.sum_add_distrib,
      ← Finset.sum_add_distrib]
    exact Finset.sum_congr rfl fun g _ => by ring
  have hcount : ∑ g ∈ vocab, ((bigramList a).count g : ℚ) =
      ((bigramList a).length : ℚ) := sum_count_of_subset _ _ hsub
  have hb : (0 : ℚ) ≤ ∑ g ∈ vocab, ((bigramList b).count g : ℚ) :=
    Finset.sum_nonneg fun g _ => Nat.cast_nonneg _
  have hlen1 : (1 : ℚ) ≤ ((bigramList a).length : ℚ) := by
    exact_mod_cast List.length_pos.mpr ha
  have hdpos : (0 : ℚ) < 2 * (∑ g ∈ vocab,
        ((bigramList a).count g : ℚ) * ((bigramList b).count g : ℚ)) +
      (∑ g ∈ vocab,
        ((bigramList a).count g : ℚ) * (1 - ((bigramList b).count g : ℚ))) +
      (∑ g ∈ vocab,
        (1 - ((bigramList a).count g : ℚ)) * ((bigramList b).count g : ℚ)) := by
    rw [hden, hcount]
    linarith
  simp only [dicePairSim, diceDissim]
  rw [if_neg (ne_of_gt hdpos), Option.map_some']
  refine ⟨_, rfl, ?_⟩
  have hfrac : ((∑ g ∈ vocab,
        ((bigramList a).count g : ℚ) * (1 - ((bigramList b).count g : ℚ))) +
      (∑ g ∈ vocab,
        (1 - ((bigramList a).count g : ℚ)) * ((bigramList b).count g : ℚ))) /
      (2 * (∑ g ∈ vocab,
        ((bigramList a).count g : ℚ) * ((bigramList b).count g : ℚ)) +
      (∑ g ∈ vocab,
        ((bigramList a).count g : ℚ) * (1 - ((bigramList b).count g : ℚ))) +
      (∑ g ∈ vocab,
        (1 - ((bigramList a).count g : ℚ)) * ((bigramList b).count g : ℚ))) ≤
      1 := by
    rw [div_le_one hdpos]
    linarith
  linarith

/-- A defined dice dissimilarity never exceeds 1 (the similarity
`1 - dice` is never negative, though it can exceed 1 on repeated
bigrams). -/
theorem dicePairSim_nonneg {vocab : Finset (Char × Char)} {a b : String}
    {s : ℚ} (h : dicePairSim vocab a b = some s) : 0 ≤ s := by
  have hntt : (0 : ℚ) ≤ ∑ g ∈ vocab,
      ((bigramList a).count g : ℚ) * ((bigramList b).count g : ℚ) :=
    Finset.sum_nonneg fun g _ =>
      mul_nonneg (Nat.cast_nonneg _) (Nat.cast_nonneg _)
  have hden : 2 * (∑ g ∈ vocab,
        ((bigramList a).count g : ℚ) * ((bigramList b).count g : ℚ)) +
      (∑ g ∈ vocab,
        ((bigramList a).count g : ℚ) * (1 - ((bigramList b).count g : ℚ))) +
      (∑ g ∈ vocab,
        (1 - ((bigramList a).count g : ℚ)) * ((bigramList b).count g : ℚ)) =
      (∑ g ∈ vocab, ((bigramList a).count g : ℚ)) +
        (∑ g ∈ vocab, ((bigramList b).count g : ℚ)) := by
    rw [Finset.mul_sum, ← Finset.sum_add_distrib, ← Finset.sum_add_distrib,
      ← Finset.sum_add_distrib]
    exact Finset.sum_congr rfl fun g _ => by ring
  simp only [dicePairSim, diceDissim] at h
  by_cases hz : 2 * (∑ g ∈ vocab,
        ((bigramList a).count g : ℚ) * ((bigramList b).count g : ℚ)) +
      (∑ g ∈ vocab,
        ((bigramList a).count g : ℚ) * (1 - ((bigramList b).count g : ℚ))) +
      (∑ g ∈ vocab,
        (1 - ((bigramList a).count g : ℚ)) * ((bigramList b).count g : ℚ)) = 0
  · rw [if_pos hz] at h
    cases h
  · rw [if_neg hz, Option.map_some'] at h
    have hda : (0 : ℚ) ≤ (∑ g ∈ vocab, ((bigramList a).count g : ℚ)) +
        (∑ g ∈ vocab, ((bigramList b).count g : ℚ)) :=
      add_nonneg (Finset.sum_nonneg fun g _ => Nat.cast_nonneg _)
        (Finset.sum_nonneg fun g _ => Nat.cast_nonneg _)
    have hdpos : (0 : ℚ) < 2 * (∑ g ∈ vocab,
          ((bigramList a).count g : ℚ) * ((bigramList b).count g : ℚ)) +
        (∑ g ∈ vocab,
          ((bigramList a).count g : ℚ) * (1 - ((bigramList b).count g : ℚ))) +
        (∑ g ∈ vocab,
          (1 - ((bigramList a).count g : ℚ)) * ((bigramList b).count g : ℚ)) :=
      lt_of_le_of_ne (hden ▸ hda) (Ne.symm hz)
    have heq := (Option.some.injEq _ _).mp h
    subst heq
    have hfrac : ((∑ g ∈ vocab,
          ((bigramList a).count g : ℚ) * (1 - ((bigramList b).count g : ℚ))) +
        (∑ g ∈ vocab,
          (1 - ((bigramList a).count g : ℚ)) * ((bigramList b).count g : ℚ))) /
        (2 * (∑ g ∈ vocab,
          ((bigramList a).count g : ℚ) * ((bigramList b).count g : ℚ)) +
        (∑ g ∈ vocab,
          ((bigramList a).count g : ℚ) * (1 - ((bigramList b).count g : ℚ))) +
        (∑ g ∈ vocab,
          (1 - ((bigramList a).count g : ℚ)) * ((bigramList b).count g : ℚ))) ≤
        1 := by
      rw [div_le_one hdpos]
      linarith
    linarith

/-- Characterization of a successful `_score_miner` run: as soon as the
vocabulary is non-empty, the dice vectorizer does not raise and the score
dict is the combined formula. -/
theorem score_miner_of_vocab (jw rat : String → String → ℚ)
    (res : List String) (uids : List Nat) (times : List ℚ)
    (h : ¬ vocabulary res = ∅) :
    score_miner jw rat res uids times =
      Except.ok ((List.range times.length).map (fun i =>
        (uids.getD i 0,
          ((pairwiseScoresOpt (fun i j => dicePairSim (vocabulary res)
              (res.getD i "") (res.getD j "")) res.length).getD i
            (some 0)).map (fun d =>
            ((calculate_jaro_winkler_scores jw res).getD i 0 + d +
                (calculate_ratcliff_obershelp_scores rat res).getD i 0)
              / 3 * (8 / 10) +
            (1 / max (times.getD i 0) 1) * (2 / 10))))) := by
  rw [score_miner, calculate_dice_similarity_scores, if_neg h]
  rfl

/-- C5: contrary to the claim, `_score_miner` applied to the empty input
(no surviving answers, uids or latencies) does not return an empty map:
`calculate_dice_similarity_scores` hands the empty list to
`CountVectorizer.fit_transform`, whose vocabulary is empty, and the resulting
`ValueError("empty vocabulary; ...")` propagates uncaught — the
`Except.error` branch of the model.  The otherwise-dead guard
`if not score_dict: return None` after the call site (validator.py:383-385)
shows the code intended the claimed empty-map behaviour. -/
theorem score_miner_empty_input_raises :
    score_miner (fun _ _ => 0) (fun _ _ => 0) [] [] [] = Except.error () := rfl

/-- C6: on a successful scoring run over parallel arrays, the score assigned
to peer `i` is the average of the three per-measure aggregates — each being
the sum over `j ≠ i` of that measure's pairwise similarity scaled by the
fixed per-pair weight `0.1` — multiplied by `0.8`, plus
`(1 / max(latency_i, 1)) * 0.2`.  The dice measure's pairwise similarity is
`1 - dice(X[i], X[j])` on the count vectors; when some dice pair is NaN
(both vectors all-zero) the score is the same NaN the program computes,
here `none`. -/
theorem score_miner_score_formula (jw rat : String → String → ℚ)
    (res : List String) (uids : List Nat) (times : List ℚ)
    (hu : uids.length = res.length) (ht : times.length = res.length)
    (m : List (Nat × Option ℚ))
    (hok : score_miner jw rat res uids times = Except.ok m) :
    m = (List.range res.length).map (fun i =>
      (uids.getD i 0,
        if ∀ j ∈ Finset.range res.length \ {i},
            (dicePairSim (vocabulary res) (res.getD i "")
              (res.getD j "")).isSome then
          some (((∑ j ∈ Finset.range res.length \ {i},
              jw (res.getD i "") (res.getD j "") * (1 / 10)) +
            (∑ j ∈ Finset.range res.length \ {i},
              (dicePairSim (vocabulary res) (res.getD i "")
                (res.getD j "")).getD 0 * (1 / 10)) +
            (∑ j ∈ Finset.range res.length \ {i},
              rat (res.getD i "") (res.getD j "") * (1 / 10))) / 3 * (8 / 10) +
            (1 / max (times.getD i 0) 1) * (2 / 10))
        else none)) := by
  by_cases hv : vocabulary res = ∅
  · rw [score_miner, calculate_dice_similarity_scores, if_pos hv] at hok
    exact absurd hok (by simp [Except.map])
  · rw [score_miner_of_vocab jw rat res uids times hv] at hok
    simp only [Except.ok.injEq] at hok
    subst hok
    rw [ht]
    refine List.map_congr_left fun i hi => ?_
    have hi' : i < res.length := List.mem_range.mp hi
    rw [pairwiseScoresOpt_getD _ hi', pairAggregateOpt_eq_sum]
    by_cases hc : ∀ j ∈ Finset.range res.length \ {i},
        (dicePairSim (vocabulary res) (res.getD i "") (res.getD j "")).isSome
    · rw [if_pos hc, if_pos hc, Option.map_some',
        calculate_jaro_winkler_scores, calculate_ratcliff_obershelp_scores,
        pairwiseScores_getD _ hi', pairwiseScores_getD _ hi',
        pairAggregate_eq_sum, pairAggregate_eq_sum]
    · rw [if_neg hc, if_neg hc]
      rfl

/-- C6 witness: one peer answering "ab" with uid 5 and latency 2 seconds is
scored `0 / 3 * 0.8 + (1/2) * 0.2 = 1/10` (no pairs exist, so every
aggregate is zero and no NaN can arise). -/
theorem score_miner_score_formula_witness :
    score_miner (fun _ _ => (0 : ℚ)) (fun _ _ => 0) ["ab"] [5] [2] =
      Except.ok [((5 : Nat), some ((1 : ℚ) / 10))] := by
  have hok := score_miner_of_vocab (fun _ _ => (0 : ℚ)) (fun _ _ => 0)
    ["ab"] [5] [2] (by decide)
  have hform := score_miner_score_formula (fun _ _ => (0 : ℚ)) (fun _ _ => 0)
    ["ab"] [5] [2] rfl rfl _ hok
  rw [hok, hform]
  norm_num [List.range_succ, Finset.range_one]

/-! ## Address parsing: `IP_REGEX`, `extract_address`, `get_ip_port`
(validator.py:44, 117-161)

`IP_REGEX = \d{1,3}\.\d{1,3}\.\d{1,3}\.\d{1,3}:\d+` and `re.search` finds
the leftmost match anywhere in the string.  At a fixed start position the
regex is deterministic: a quantified digit group must consume a maximal
digit run (digits and the following literal `.` or `:` are disjoint), so
`\d{1,3}` matches exactly when the run has length 1 to 3, and the final
greedy `\d+` takes the whole run. -/

/-- Match one `\d{1,3}` group followed by a non-digit: succeeds exactly when
the leading digit run has length 1 to 3, returning the run and the rest. -/
def chompOctet (l : List Char) : Option (List Char × List Char) :=
  if (l.takeWhile Char.isDigit).length = 0 ∨ 3 < (l.takeWhile Char.isDigit).length
  then none
  else some (l.takeWhile Char.isDigit, l.dropWhile Char.isDigit)

/-- Consume one expected literal character. -/
def chompChar (c : Char) : List Char → Option (List Char)
  | [] => none
  | b :: l => if b = c then some l else none

/-- Match `IP_REGEX` anchored at the start of `l`, returning the matched
text (`group(0)`). -/
def ipMatchAt (l : List Char) : Option (List Char) :=
  (chompOctet l).bind fun x1 =>
  (chompChar '.' x1.2).bind fun l2 =>
  (chompOctet l2).bind fun x2 =>
  (chompChar '.' x2.2).bind fun l4 =>
  (chompOctet l4).bind fun x3 =>
  (chompChar '.' x3.2).bind fun l6 =>
  (chompOctet l6).bind fun x4 =>
  (chompChar ':' x4.2).bind fun l8 =>
  if (l8.takeWhile Char.isDigit).length = 0 then none
  else some (x1.1 ++ '.' :: x2.1 ++ '.' :: x3.1 ++ '.' :: x4.1 ++ ':' ::
    l8.takeWhile Char.isDigit)

/-- `re.search(IP_REGEX, string)`: try each start position left to right. -/
def regexSearch : List Char → Option (List Char)
  | [] => none
  | a :: l =>
    match ipMatchAt (a :: l) with
    | some m => some m
    | none => regexSearch l

/-- `extract_address` (validator.py:117-121). -/
def extract_address (s : String) : Option String :=
  (regexSearch s.data).map fun m => String.mk m

/-- Python's `"host:port".split(":")` on a matched text, which contains
exactly one colon: the pair of the part before and the part after it. -/
def splitHostPort (m : String) : String × String :=
  (String.mk (m.data.takeWhile (fun c => c ≠ ':')),
   String.mk ((m.data.dropWhile (fun c => c ≠ ':')).tail))

/-- `get_ip_port` (validator.py:146-161): keep exactly the entries whose raw
address string contains a match of `IP_REGEX`, mapped to the
`x.group(0).split(":")` pair of strings; all other entries are silently
dropped.  The port stays a digit string here — it is converted to an integer
at connection time (`int(module_port)` in `_get_miner_prediction`). -/
def get_ip_port (modules_adresses : List (Nat × String)) :
    List (Nat × (String × String)) :=
  modules_adresses.filterMap fun p =>
    (extract_address p.2).map fun m => (p.1, splitHostPort m)

/-- Spec-side description of one host octet: one to three digits. -/
def IsOctet (o : List Char) : Prop :=
  o ≠ [] ∧ o.length ≤ 3 ∧ ∀ c ∈ o, Char.isDigit c

/-- Spec-side description of "the raw string contains a parseable
`host:port` pattern" (host = four dot-separated 1-3-digit octets, port = one
or more digits). -/
def ContainsHostPort (s : String) : Prop :=
  ∃ pre o1 o2 o3 o4 port suf : List Char,
    s.data = pre ++ o1 ++ '.' :: o2 ++ '.' :: o3 ++ '.' :: o4 ++ ':' ::
      port ++ suf ∧
    IsOctet o1 ∧ IsOctet o2 ∧ IsOctet o3 ∧ IsOctet o4 ∧
    port ≠ [] ∧ ∀ c ∈ port, Char.isDigit c

/-! ## Lemmas about the address regex -/

theorem takeWhile_append_all {p : Char → Bool} {d r : List Char}
    (h : ∀ c ∈ d, p c) : (d ++ r).takeWhile p = d ++ r.takeWhile p := by
  induction d with
  | nil => simp
  | cons c d ih =>
    rw [List.cons_append, List.takeWhile_cons_of_pos (h c (by simp)),
      ih (fun x hx => h x (by simp [hx]))]
    rfl

theorem dropWhile_append_all {p : Char → Bool} {d r : List Char}
    (h : ∀ c ∈ d, p c) : (d ++ r).dropWhile p = r.dropWhile p := by
  induction d with
  | nil => simp
  | cons c d ih =>
    rw [List.cons_append, List.dropWhile_cons_of_pos (h c (by simp)),
      ih (fun x hx => h x (by simp [hx]))]

theorem chompOctet_some {l : List Char} {o rest : List Char}
    (h : chompOctet l = some (o, rest)) : l = o ++ rest ∧ IsOctet o := by
  rw [chompOctet] at h
  by_cases hc : (l.takeWhile Char.isDigit).length = 0 ∨
      3 < (l.takeWhile Char.isDigit).length
  · rw [if_pos hc] at h
    cases h
  · rw [if_neg hc] at h
    push_neg at hc
    simp only [Option.some.injEq, Prod.mk.injEq] at h
    obtain ⟨rfl, rfl⟩ := h
    refine ⟨(List.takeWhile_append_dropWhile _ _).symm,
      fun hnil => hc.1 (by simp [hnil]), hc.2, fun c hcm => ?_⟩
    exact List.mem_takeWhile_imp hcm

theorem chompChar_some {c : Char} {l l' : List Char}
    (h : chompChar c l = some l') : l = c :: l' := by
  cases l with
  | nil => simp [chompChar] at h
  | cons b l =>
    rw [chompChar] at h
    by_cases hb : b = c
    · rw [if_pos hb] at h
      simp only [Option.some.injEq] at h
      rw [hb, h]
    · rw [if_neg hb] at h
      cases h

theorem chompOctet_append {o : List Char} {x : Char} {r : List Char}
    (ho : IsOctet o) (hx : ¬ Char.isDigit x) :
    chompOctet (o ++ x :: r) = some (o, x :: r) := by
  obtain ⟨hne, hlen, hdig⟩ := ho
  have ht : (o ++ x :: r).takeWhile Char.isDigit = o := by
    rw [takeWhile_append_all hdig, List.takeWhile_cons_of_neg (by simpa using hx)]
    simp
  have hd : (o ++ x :: r).dropWhile Char.isDigit = x :: r := by
    rw [dropWhile_append_all hdig, List.dropWhile_cons_of_neg (by simpa using hx)]
  rw [chompOctet, ht, hd, if_neg]
  rintro (h0 | h3)
  · exact hne (List.length_eq_zero.mp h0)
  · omega

theorem chompChar_cons_self (c : Char) (l : List Char) :
    chompChar c (c :: l) = some l := by
  rw [chompChar, if_pos rfl]

/-- Anchored-match inversion: a successful `ipMatchAt` decomposes its input
into four octets, a colon and a non-empty digit run, and the matched text is
that prefix. -/
theorem ipMatchAt_some {l m : List Char} (h : ipMatchAt l = some m) :
    ∃ o1 o2 o3 o4 port rest : List Char,
      l = o1 ++ '.' :: o2 ++ '.' :: o3 ++ '.' :: o4 ++ ':' :: port ++ rest ∧
      m = o1 ++ '.' :: o2 ++ '.' :: o3 ++ '.' :: o4 ++ ':' :: port ∧
      IsOctet o1 ∧ IsOctet o2 ∧ IsOctet o3 ∧ IsOctet o4 ∧
      port ≠ [] ∧ ∀ c ∈ port, Char.isDigit c := by
  rw [ipMatchAt] at h
  simp only [Option.bind_eq_some] at h
  obtain ⟨⟨o1, l1⟩, hc1, l2, hd1, ⟨o2, l3⟩, hc2, l4, hd2, ⟨o3, l5⟩, hc3, l6,
    hd3, ⟨o4, l7⟩, hc4, l8, hd4, hfin⟩ := h
  dsimp only at hd1 hd2 hd3 hd4 hfin
  obtain ⟨he1, ho1⟩ := chompOctet_some hc1
  have he2 := chompChar_some hd1
  obtain ⟨he3, ho2⟩ := chompOctet_some hc2
  have he4 := chompChar_some hd2
  obtain ⟨he5, ho3⟩ := chompOctet_some hc3
  have he6 := chompChar_some hd3
  obtain ⟨he7, ho4⟩ := chompOctet_some hc4
  have he8 := chompChar_some hd4
  by_cases hz : (l8.takeWhile Char.isDigit).length = 0
  · rw [if_pos hz] at hfin
    cases hfin
  · rw [if_neg hz] at hfin
    simp only [Option.some.injEq] at hfin
    refine ⟨o1, o2, o3, o4, l8.takeWhile Char.isDigit, l8.dropWhile Char.isDigit,
      ?_, hfin.symm, ho1, ho2, ho3, ho4,
      fun hnil => hz (by simp [hnil]), fun c hcm => List.mem_takeWhile_imp hcm⟩
    rw [he1, he2, he3, he4, he5, he6, he7, he8]
    conv_lhs => rw [← List.takeWhile_append_dropWhile Char.isDigit l8]
    simp [List.append_assoc]

/-- Anchored-match construction: the regex matches at the start of any list
of the decomposed shape. -/
theorem ipMatchAt_parts {o1 o2 o3 o4 port suf : List Char}
    (h1 : IsOctet o1) (h2 : IsOctet o2) (h3 : IsOctet o3) (h4 : IsOctet o4)
    (hp : port ≠ []) (hpd : ∀ c ∈ port, Char.isDigit c) :
    (ipMatchAt (o1 ++ '.' :: (o2 ++ '.' :: (o3 ++ '.' :: (o4 ++ ':' ::
      (port ++ suf)))))).isSome := by
  have hdot : ¬ Char.isDigit '.' = true := by decide
  have hcolon : ¬ Char.isDigit ':' = true := by decide
  simp only [ipMatchAt, chompOctet_append h1 hdot, chompOctet_append h2 hdot,
    chompOctet_append h3 hdot, chompOctet_append h4 hcolon,
    chompChar_cons_self, Option.some_bind]
  rw [takeWhile_append_all hpd]
  have hc : ¬ ((port ++ suf.takeWhile Char.isDigit).length = 0) := by
    rw [List.length_append]
    intro h0
    exact hp (List.length_eq_zero.mp (by omega))
  rw [if_neg hc]
  rfl

theorem ipMatchAt_nil : ipMatchAt [] = none := rfl

theorem regexSearch_some {l m : List Char} (h : regexSearch l = some m) :
    ∃ pre t, l = pre ++ t ∧ ipMatchAt t = some m := by
  induction l with
  | nil => simp [regexSearch] at h
  | cons a l ih =>
    rw [regexSearch] at h
    cases hm : ipMatchAt (a :: l) with
    | some m2 =>
      rw [hm] at h
      simp only [Option.some.injEq] at h
      exact ⟨[], a :: l, rfl, by rw [hm, h]⟩
    | none =>
      rw [hm] at h
      obtain ⟨pre, t, rfl, ht⟩ := ih h
      exact ⟨a :: pre, t, rfl, ht⟩

theorem regexSearch_append_isSome (pre t : List Char)
    (h : (ipMatchAt t).isSome) : (regexSearch (pre ++ t)).isSome := by
  induction pre with
  | nil =>
    rw [List.nil_append]
    cases t with
    | nil => rw [ipMatchAt_nil] at h; cases h
    | cons a t2 =>
      obtain ⟨m, hm⟩ := Option.isSome_iff_exists.mp h
      rw [regexSearch, hm]
      rfl
  | cons p pre ih =>
    rw [List.cons_append, regexSearch]
    cases hm : ipMatchAt (p :: (pre ++ t)) with
    | some m => rfl
    | none => exact ih

/-- The entry-level decision of `get_ip_port`: an address is kept exactly
when its raw string contains the `host:port` pattern. -/
theorem extract_address_isSome_iff (s : String) :
    (extract_address s).isSome = true ↔ ContainsHostPort s := by
  rw [extract_address]
  have hmap : ((regexSearch s.data).map fun m => String.mk m).isSome =
      (regexSearch s.data).isSome := by
    cases regexSearch s.data <;> rfl
  rw [hmap]
  constructor
  · intro h
    obtain ⟨m, hm⟩ := Option.isSome_iff_exists.mp h
    obtain ⟨pre, t, heq, hmt⟩ := regexSearch_some hm
    obtain ⟨o1, o2, o3, o4, port, rest, hteq, _, h1, h2, h3, h4, hp, hpd⟩ :=
      ipMatchAt_some hmt
    refine ⟨pre, o1, o2, o3, o4, port, rest, ?_, h1, h2, h3, h4, hp, hpd⟩
    rw [heq, hteq]
    simp [List.append_assoc]
  · rintro ⟨pre, o1, o2, o3, o4, port, suf, heq, h1, h2, h3, h4, hp, hpd⟩
    rw [heq]
    have h := regexSearch_append_isSome pre
      (o1 ++ '.' :: (o2 ++ '.' :: (o3 ++ '.' :: (o4 ++ ':' :: (port ++ suf)))))
      (ipMatchAt_parts h1 h2 h3 h4 hp hpd)
    have heq2 : pre ++ o1 ++ '.' :: o2 ++ '.' :: o3 ++ '.' :: o4 ++ ':' ::
        port ++ suf =
        pre ++ (o1 ++ '.' :: (o2 ++ '.' :: (o3 ++ '.' :: (o4 ++ ':' ::
          (port ++ suf))))) := by
      simp [List.append_assoc]
    rw [heq2]
    exact h

/-! ## Polling and the round: `_get_miner_prediction`, `validate_step`
(validator.py:214-259, 330-389) -/

/-- The observable outcome of one `client.call` to a miner, as seen by
`_get_miner_prediction`:
* `err` — an exception inside the `try` block: timeout, transport error, or
  a response without a usable `"answer"` dict (`miner_answer["answer"]`
  raised, or the `miner_answer["response_time"] = ...` assignment raised on
  a non-dict answer);
* `ok response rt` — an answer dict came back after `rt` seconds, with
  `response` its `"response"` field when present.  The dict always gains a
  `"response_time"` key, so downstream it is never falsy. -/
inductive CallOutcome where
  | err : CallOutcome
  | ok : Option String → ℚ → CallOutcome

/-- `_get_miner_prediction` (validator.py:214-259): every exception inside
the `try` block is caught, logged and turned into `None`; a successful call
returns the answer dict. -/
def get_miner_prediction : CallOutcome → Option (Option String × ℚ)
  | CallOutcome.err => none
  | CallOutcome.ok r t => some (r, t)

/-- The polling stage of `validate_step` (validator.py:362-368): the thread
pool maps `_get_miner_prediction` over the miner infos in input order; the
results are zipped back onto the module ids positionally. -/
def poll_miners (oracle : Nat → CallOutcome) (ids : List Nat) :
    List (Nat × Option (Option String × ℚ)) :=
  ids.map fun id => (id, get_miner_prediction (oracle id))

/-- The collection loop of `validate_step` (validator.py:370-379): `None`
answers are skipped (`if not miner_answer: continue`), and each surviving
answer's `response`, `response_time` and uid are appended to three parallel
lists.  `miner_response['response']` raises an uncaught `KeyError` when a
surviving answer dict lacks the `"response"` field — the `Except.error`
branch. -/
def collect_answers :
    List (Nat × Option (Option String × ℚ)) →
      Except Unit (List String × List ℚ × List Nat)
  | [] => Except.ok ([], [], [])
  | (_, none) :: rest => collect_answers rest
  | (_, some (none, _)) :: _ => Except.error ()
  | (uid, some (some r, t)) :: rest =>
    (collect_answers rest).map fun x => (r :: x.1, t :: x.2.1, uid :: x.2.2)

/-- The module ids a round polls (validator.py:350-357): the keys of
`query_map_key` that have a resolvable address in `get_ip_port`'s output. -/
def round_module_ids (addresses keys : List (Nat × String)) : List Nat :=
  (keys.map Prod.fst).filter
    (fun id => ((get_ip_port addresses).lookup id).isSome)

/-- The uncaught exceptions that can end a `validate_step` round. -/
inductive RoundError where
  | unregistered : RoundError
  | malformedAnswer : RoundError
  | emptyVocab : RoundError
  | nanScore : RoundError
  | divisionByZero : RoundError

/-- A NaN in the score dict aborts the round inside `set_weights`: Python's
`int(score * 1000 / scores)` (validator.py:108) raises
`ValueError: cannot convert float NaN to integer` when `score` is NaN (and
NaN also poisons the `scores` total), so the first loop iteration over a
NaN-carrying cut raises before any weight is emitted and before the vote.
We surface this as `nanScore` at the hand-off from `_score_miner` to
`set_weights`, which keeps `set_weights` on plain rationals; the one corner
this shifts — `max_allowed_weights = 0` leaves the cut empty so the NaN is
never touched and an empty vote still goes out — is not exercised by any
round modelled below. -/
def denanScores : List (Nat × Option ℚ) → Except RoundError (List ScoreEntry)
  | [] => Except.ok []
  | (_, none) :: _ => Except.error RoundError.nanScore
  | (uid, some q) :: rest => (denanScores rest).map fun sd => (uid, q) :: sd

/-- Polling, collection and scoring of one round (validator.py:350-381),
producing the `score_dict` handed to `set_weights`.  A `KeyError` from the
collection loop becomes `malformedAnswer`; a `ValueError` from the dice
vectorizer becomes `emptyVocab`; a NaN score becomes `nanScore` (see
`denanScores`); each aborts here.  The collected triple is
`(miner_res, miner_time, miner_uids)` and the call is
`_score_miner(miner_res, miner_uids, miner_time)`. -/
def round_score_dict (jw rat : String → String → ℚ)
    (addresses keys : List (Nat × String)) (oracle : Nat → CallOutcome) :
    Except RoundError (List ScoreEntry) :=
  ((collect_answers (poll_miners oracle (round_module_ids addresses keys))).mapError
      fun _ => RoundError.malformedAnswer).bind
    fun x => ((score_miner jw rat x.1 x.2.2 x.2.1).mapError
      fun _ => RoundError.emptyVocab).bind denanScores

/-- `validate_step` (validator.py:330-389).  External collaborators are
parameters: `addresses` is `query_map_address`, `keys` is `query_map_key`,
`valKey` is the validator's own ss58 address, and `oracle` gives each
module's RPC outcome (keyed by module id, which within a round determines
the address and key the call uses).  The result:
* `Except.error e` — the round aborted with the uncaught exception `e`
  (`RuntimeError` for an unregistered key, `KeyError` from the collection
  loop, `ValueError` from the dice vectorizer, `ZeroDivisionError` from
  `set_weights`);
* `Except.ok none` — the round returned after only logging
  "No miner managed to give a valid answer", submitting nothing;
* `Except.ok (some (uids, weights))` — the round ended in the blockchain
  call `client.vote(key, uids, weights, netuid)`. -/
def validate_step (jw rat : String → String → ℚ) (max_allowed_weights : Nat)
    (addresses keys : List (Nat × String)) (valKey : String)
    (oracle : Nat → CallOutcome) :
    Except RoundError (Option (List Nat × List ℤ)) :=
  if valKey ∉ keys.map Prod.snd then Except.error RoundError.unregistered
  else
    (round_score_dict jw rat addresses keys oracle).bind fun sd =>
      if sd.isEmpty then Except.ok none
      else
        ((set_weights max_allowed_weights sd).mapError
            fun _ => RoundError.divisionByZero).map
          fun w => some (w.map Prod.fst, w.map Prod.snd)

/-- Python's `int(...)` applied to a decimal digit string, as done to the
port at connection time (`int(module_port)`, validator.py:231). -/
def pyIntOfString (s : String) : Nat :=
  s.data.foldl (fun acc c => acc * 10 + (c.toNat - '0'.toNat)) 0

/-! ## Small reduction helpers for `Except` -/

theorem except_bind_ok {ε α β : Type} (x : α) (f : α → Except ε β) :
    (Except.ok x : Except ε α).bind f = f x := rfl

theorem except_bind_error {ε α β : Type} (e : ε) (f : α → Except ε β) :
    (Except.error e : Except ε α).bind f = Except.error e := rfl

theorem except_mapError_ok {ε ε2 α : Type} (x : α) (f : ε → ε2) :
    (Except.ok x : Except ε α).mapError f = Except.ok x := rfl

theorem except_mapError_error {ε ε2 α : Type} (e : ε) (f : ε → ε2) :
    (Except.error e : Except ε α).mapError f = Except.error (f e) := rfl

theorem except_map_ok {ε α β : Type} (x : α) (f : α → β) :
    (Except.ok x : Except ε α).map f = Except.ok (f x) := rfl

/-! ## The claims about the round pipeline -/

/-- C8: `get_ip_port` keeps exactly the entries whose raw string contains a
`host:port` pattern — four dot-separated 1-3-digit octets, a colon, and one
or more digits — and drops all others without error; on the input
`{1: "garbage", 2: "10.0.0.5:9000 extra"}` it returns exactly the entry
`{2: ("10.0.0.5", "9000")}`, whose port denotes the integer 9000 (the code
carries the port as this digit string and converts it with `int(...)` at
connection time). -/
theorem get_ip_port_keeps_pattern_entries :
    (∀ s : String, (extract_address s).isSome = true ↔ ContainsHostPort s) ∧
    (∀ (addrs : List (Nat × String)) (q : Nat × (String × String)),
      q ∈ get_ip_port addrs → ∃ s, (q.1, s) ∈ addrs ∧ ContainsHostPort s) ∧
    (∀ (addrs : List (Nat × String)) (p : Nat × String), p ∈ addrs →
      ContainsHostPort p.2 → ∃ hp, (p.1, hp) ∈ get_ip_port addrs) ∧
    (get_ip_port [(1, "garbage"), (2, "10.0.0.5:9000 extra")]).map
        (fun p => (p.1, p.2.1, pyIntOfString p.2.2)) =
      [(2, ("10.0.0.5", 9000))] := by
  refine ⟨extract_address_isSome_iff, ?_, ?_, by decide⟩
  · intro addrs q hq
    rw [get_ip_port] at hq
    obtain ⟨p, hp, hfp⟩ := List.mem_filterMap.mp hq
    obtain ⟨m, hm, hqeq⟩ := Option.map_eq_some'.mp hfp
    refine ⟨p.2, ?_, ?_⟩
    · rw [← hqeq]
      exact hp
    · rw [← extract_address_isSome_iff, hm]
      rfl
  · intro addrs p hp hcont
    obtain ⟨m, hm⟩ := Option.isSome_iff_exists.mp
      ((extract_address_isSome_iff p.2).mpr hcont)
    refine ⟨splitHostPort m, ?_⟩
    rw [get_ip_port]
    exact List.mem_filterMap.mpr ⟨p, hp, by rw [hm]; rfl⟩

/-- C8 witness: the raw string "1.2.3.4:56" contains the `host:port`
pattern, obtained by running the parser. -/
theorem get_ip_port_keeps_pattern_entries_witness :
    ContainsHostPort "1.2.3.4:56" :=
  (get_ip_port_keeps_pattern_entries.1 "1.2.3.4:56").mp (by decide)

/-- Evaluation of the round's module roster on the concrete example used by
the pipeline counterexamples: module 1 has a resolvable address, module 2
does not appear in the address map. -/
theorem round_module_ids_example :
    round_module_ids [(1, "10.0.0.5:9000")] [(1, "KEY1"), (2, "VALKEY")] =
      [1] := by decide

/-- C3 counterexample: a registered validator, one answering miner, and
`max_allowed_weights = 0` (so that normalization keeps nothing and the
weight map is empty).  The round does not skip submission: it ends in
`client.vote(key, uids=[], weights=[], netuid)` — the model's
`Except.ok (some ([], []))`. -/
theorem validate_step_votes_empty_map :
    validate_step (fun _ _ => (0 : ℚ)) (fun _ _ => (0 : ℚ)) 0
      [(1, "10.0.0.5:9000")] [(1, "KEY1"), (2, "VALKEY")] "VALKEY"
      (fun _ => CallOutcome.ok (some "ab") 1) =
      Except.ok (some ([], [])) := by
  have hcol : collect_answers (poll_miners
      (fun _ => CallOutcome.ok (some "ab") 1) [1]) =
      Except.ok (["ab"], [1], [1]) := rfl
  have hsm : score_miner (fun _ _ => (0 : ℚ)) (fun _ _ => (0 : ℚ))
      ["ab"] [1] [1] = Except.ok [(1, some (1/5))] := by
    rw [score_miner_of_vocab _ _ _ _ _ (by decide)]
    norm_num [List.range_succ, pairwiseScores, pairAggregate,
      pairwiseScoresOpt, pairAggregateOpt,
      calculate_jaro_winkler_scores, calculate_ratcliff_obershelp_scores]
  have hdn : denanScores [(1, some ((1 : ℚ)/5))] = Except.ok [(1, 1/5)] := rfl
  have hsw : set_weights 0 [(1, (1 : ℚ)/5)] = Except.ok [] := by
    rw [set_weights_eq]
    simp [cut_to_max_allowed_weights]
  rw [validate_step, if_neg (by decide)]
  simp only [round_score_dict, round_module_ids_example, hcol,
    except_mapError_ok, except_bind_ok, hsm, hdn, List.isEmpty_cons,
    Bool.false_eq_true, if_false, hsw, except_map_ok, List.map_nil]

/-- C3 (amended): the round skips submission only when the score dict itself
is empty; the weight map is never checked.  Whenever the score dict is
non-empty and normalization succeeds, `client.vote` is called with exactly
the computed uid and weight lists — even when both are empty. -/
theorem validate_step_vote_on_ok (jw rat : String → String → ℚ)
    (maxA : Nat) (addresses keys : List (Nat × String)) (valKey : String)
    (oracle : Nat → CallOutcome)
    (hreg : valKey ∈ keys.map Prod.snd) (sd : List ScoreEntry)
    (hsd : round_score_dict jw rat addresses keys oracle = Except.ok sd)
    (hne : sd ≠ []) (w : List (Nat × ℤ))
    (hw : set_weights maxA sd = Except.ok w) :
    validate_step jw rat maxA addresses keys valKey oracle =
      Except.ok (some (w.map Prod.fst, w.map Prod.snd)) := by
  rw [validate_step, if_neg (not_not_intro hreg), hsd, except_bind_ok,
    if_neg (fun h => hne (List.isEmpty_iff.mp h)), hw, except_mapError_ok,
    except_map_ok]

/-- C3 witness: the amended statement on a concrete round — registered key,
one miner answering "cd" in 2 seconds, ceiling 0 — where the computed weight
map is empty and the vote is made with empty lists. -/
theorem validate_step_vote_on_ok_witness :
    validate_step (fun _ _ => (0 : ℚ)) (fun _ _ => (0 : ℚ)) 0
      [(1, "10.0.0.5:9000")] [(1, "KEY1"), (2, "VALKEY")] "VALKEY"
      (fun _ => CallOutcome.ok (some "cd") 2) =
      Except.ok (some ([], [])) := by
  have hsm : score_miner (fun _ _ => (0 : ℚ)) (fun _ _ => (0 : ℚ))
      ["cd"] [1] [2] = Except.ok [(1, some (1/10))] := by
    rw [score_miner_of_vocab _ _ _ _ _ (by decide)]
    norm_num [List.range_succ, pairwiseScores, pairAggregate,
      pairwiseScoresOpt, pairAggregateOpt,
      calculate_jaro_winkler_scores, calculate_ratcliff_obershelp_scores]
  have hdn : denanScores [(1, some ((1 : ℚ)/10))] = Except.ok [(1, 1/10)] := rfl
  have hsd : round_score_dict (fun _ _ => (0 : ℚ)) (fun _ _ => (0 : ℚ))
      [(1, "10.0.0.5:9000")] [(1, "KEY1"), (2, "VALKEY")]
      (fun _ => CallOutcome.ok (some "cd") 2) = Except.ok [(1, 1/10)] := by
    have hcol : collect_answers (poll_miners
        (fun _ => CallOutcome.ok (some "cd") 2) [1]) =
        Except.ok (["cd"], [2], [1]) := rfl
    simp only [round_score_dict, round_module_ids_example, hcol,
      except_mapError_ok, except_bind_ok, hsm, hdn]
  have hsw : set_weights 0 [(1, (1 : ℚ)/10)] = Except.ok [] := by
    rw [set_weights_eq]
    simp [cut_to_max_allowed_weights]
  exact validate_step_vote_on_ok _ _ 0 _ _ "VALKEY" _ (by decide)
    [(1, 1/10)] hsd (by simp) [] hsw

/-- C7 counterexample: a peer whose call succeeds but whose answer dict
lacks the `"response"` field (a malformed response) is not contained as an
absent result: `_get_miner_prediction` hands the dict through, and the
collection loop's `miner_response['response']` raises a `KeyError` that
aborts the whole round. -/
theorem validate_step_malformed_answer_aborts :
    validate_step (fun _ _ => (0 : ℚ)) (fun _ _ => (0 : ℚ)) 420
      [(1, "10.0.0.5:9000")] [(1, "KEY1"), (2, "VALKEY")] "VALKEY"
      (fun _ => CallOutcome.ok none 1) =
      Except.error RoundError.malformedAnswer := by
  have hcol : collect_answers (poll_miners
      (fun _ => CallOutcome.ok none 1) [1]) = Except.error () := rfl
  rw [validate_step, if_neg (by decide)]
  simp only [round_score_dict, round_module_ids_example, hcol,
    except_mapError_error, except_bind_error]

/-- C7 (amended): every failure raised during the peer call itself —
timeout, transport error, or a response without a usable `"answer"` payload
— is contained by `_get_miner_prediction`: the peer's result is `None`, each
peer's polling result is a function of that peer's own outcome alone, and a
round whose calls all fail this way collects empty lists instead of
raising.  (A returned answer dict lacking the `"response"` field is *not*
contained; see the counterexample.) -/
theorem get_miner_prediction_contains_failures :
    (get_miner_prediction CallOutcome.err = none) ∧
    (∀ (oracle : Nat → CallOutcome) (ids : List Nat)
      (p : Nat × Option (Option String × ℚ)), p ∈ poll_miners oracle ids →
      p.2 = get_miner_prediction (oracle p.1)) ∧
    (∀ (oracle : Nat → CallOutcome) (ids : List Nat),
      (∀ i ∈ ids, oracle i = CallOutcome.err) →
      collect_answers (poll_miners oracle ids) = Except.ok ([], [], [])) := by
  refine ⟨rfl, ?_, ?_⟩
  · intro oracle ids p hp
    rw [poll_miners] at hp
    obtain ⟨id, _, rfl⟩ := List.mem_map.mp hp
    rfl
  · intro oracle ids h
    induction ids with
    | nil => rfl
    | cons id ids ih =>
      rw [poll_miners, List.map_cons, h id (by simp), ← poll_miners]
      exact ih (fun i hi => h i (by simp [hi]))

/-- C7 witness: a round of two peers both failing inside the `try` block
collects no answers and aborts nothing. -/
theorem get_miner_prediction_contains_failures_witness :
    collect_answers (poll_miners (fun _ => CallOutcome.err) [1, 2]) =
      Except.ok ([], [], []) :=
  get_miner_prediction_contains_failures.2.2 (fun _ => CallOutcome.err)
    [1, 2] (fun _ _ => rfl)

/-- C9: when the validator's own key is not among the registered keys of the
roster, `validate_step` raises `RuntimeError` immediately; the error
propagates out of the round (unlike per-peer failures), and no peer is
polled — the outcome does not depend on the polling oracle at all. -/
theorem validate_step_unregistered (jw rat : String → String → ℚ)
    (maxA : Nat) (addresses keys : List (Nat × String)) (valKey : String)
    (oracle oracle2 : Nat → CallOutcome)
    (h : valKey ∉ keys.map Prod.snd) :
    validate_step jw rat maxA addresses keys valKey oracle =
      Except.error RoundError.unregistered ∧
    validate_step jw rat maxA addresses keys valKey oracle =
      validate_step jw rat maxA addresses keys valKey oracle2 := by
  constructor
  · rw [validate_step, if_pos h]
  · rw [validate_step, if_pos h, validate_step, if_pos h]

/-- C9 witness: a validator key absent from the roster aborts the round. -/
theorem validate_step_unregistered_witness :
    validate_step (fun _ _ => (0 : ℚ)) (fun _ _ => (0 : ℚ)) 420
      [] [(1, "KEY1")] "NOTREGISTERED" (fun _ => CallOutcome.err) =
      Except.error RoundError.unregistered :=
  (validate_step_unregistered _ _ 420 [] [(1, "KEY1")] "NOTREGISTERED"
    (fun _ => CallOutcome.err) (fun _ => CallOutcome.err) (by decide)).1

/-! ## Score positivity and the NaN path -/

/-- Every entry of a NaN-free score dict comes from the raw score dict with
its value wrapped in `some`. -/
theorem denanScores_mem {m : List (Nat × Option ℚ)} {sd : List ScoreEntry}
    (h : denanScores m = Except.ok sd) :
    ∀ p ∈ sd, (p.1, some p.2) ∈ m := by
  induction m generalizing sd with
  | nil =>
    simp only [denanScores, Except.ok.injEq] at h
    subst h
    intro p hp
    cases hp
  | cons a rest ih =>
    obtain ⟨uid, q⟩ := a
    cases q with
    | none => exact absurd h (by simp [denanScores])
    | some v =>
      simp only [denanScores] at h
      cases hrest : denanScores rest with
      | error e =>
        rw [hrest] at h
        exact absurd h (by simp [Except.map])
      | ok sd2 =>
        rw [hrest] at h
        simp only [Except.map, Except.ok.injEq] at h
        subst h
        intro p hp
        rcases List.mem_cons.mp hp with rfl | hp2
        · exact List.mem_cons_self _ _
        · exact List.mem_cons_of_mem _ (ih hrest p hp2)

/-- C10 counterexample: on the reachable answer set `["ab", "x", "y"]`
(uids 1, 2, 3, all latencies 1 second) the scoring run succeeds, but only
uid 1 receives the positive number `1/5`: the single-character answers have
no bigram, their count vectors are all-zero, scipy's `dice` on that pair is
`0/0 = NaN`, and the NaN propagates through `scores[i] += sim * 0.1` into
the final scores of uids 2 and 3 — which are therefore not strictly
positive (they are not numbers at all). -/
theorem score_miner_nan_scores :
    score_miner (fun _ _ => (0 : ℚ)) (fun _ _ => 0) ["ab", "x", "y"]
      [1, 2, 3] [1, 1, 1] =
      Except.ok [(1, some ((1 : ℚ) / 5)), (2, none), (3, none)] := by
  have hvoc : vocabulary ["ab", "x", "y"] = {('a', 'b')} := by decide
  have hcab : (bigramList "ab").count ('a', 'b') = 1 := by decide
  have hcx : (bigramList "x").count ('a', 'b') = 0 := by decide
  have hcy : (bigramList "y").count ('a', 'b') = 0 := by decide
  have hab_x : dicePairSim (vocabulary ["ab", "x", "y"]) "ab" "x" = some 0 := by
    norm_num [dicePairSim, diceDissim, hvoc, Finset.sum_singleton, hcab, hcx]
  have hab_y : dicePairSim (vocabulary ["ab", "x", "y"]) "ab" "y" = some 0 := by
    norm_num [dicePairSim, diceDissim, hvoc, Finset.sum_singleton, hcab, hcy]
  have hx_ab : dicePairSim (vocabulary ["ab", "x", "y"]) "x" "ab" = some 0 := by
    norm_num [dicePairSim, diceDissim, hvoc, Finset.sum_singleton, hcab, hcx]
  have hy_ab : dicePairSim (vocabulary ["ab", "x", "y"]) "y" "ab" = some 0 := by
    norm_num [dicePairSim, diceDissim, hvoc, Finset.sum_singleton, hcab, hcy]
  have hx_y : dicePairSim (vocabulary ["ab", "x", "y"]) "x" "y" = none := by
    norm_num [dicePairSim, diceDissim, hvoc, Finset.sum_singleton, hcx, hcy]
  have hy_x : dicePairSim (vocabulary ["ab", "x", "y"]) "y" "x" = none := by
    norm_num [dicePairSim, diceDissim, hvoc, Finset.sum_singleton, hcx, hcy]
  have g0 : (["ab", "x", "y"].getD 0 "") = "ab" := rfl
  have g1 : (["ab", "x", "y"].getD 1 "") = "x" := rfl
  have g2 : (["ab", "x", "y"].getD 2 "") = "y" := rfl
  have hs0 : Finset.range 3 \ {0} = ({1, 2} : Finset ℕ) := by decide
  have hs1 : Finset.range 3 \ {1} = ({0, 2} : Finset ℕ) := by decide
  have hs2 : Finset.range 3 \ {2} = ({0, 1} : Finset ℕ) := by decide
  have hagg0 : pairAggregateOpt (fun i j =>
      dicePairSim (vocabulary ["ab", "x", "y"])
        (["ab", "x", "y"].getD i "") (["ab", "x", "y"].getD j "")) 3 0 =
      some 0 := by
    rw [pairAggregateOpt_eq_sum, hs0]
    have hc : ∀ j ∈ ({1, 2} : Finset ℕ), ((fun i j =>
        dicePairSim (vocabulary ["ab", "x", "y"])
          (["ab", "x", "y"].getD i "") (["ab", "x", "y"].getD j "")) 0
          j).isSome := by
      intro j hj
      rcases Finset.mem_insert.mp hj with rfl | hj2
      · simp [g0, g1, hab_x]
      · rw [Finset.mem_singleton] at hj2
        subst hj2
        simp [g0, g2, hab_y]
    rw [if_pos hc, Finset.sum_pair (by decide : (1 : ℕ) ≠ 2)]
    simp [g0, g1, g2, hab_x, hab_y]
  have hagg1 : pairAggregateOpt (fun i j =>
      dicePairSim (vocabulary ["ab", "x", "y"])
        (["ab", "x", "y"].getD i "") (["ab", "x", "y"].getD j "")) 3 1 =
      none := by
    rw [pairAggregateOpt_eq_sum, hs1, if_neg]
    intro hforall
    have h2 := hforall 2 (by decide)
    simp [g1, g2, hx_y] at h2
  have hagg2 : pairAggregateOpt (fun i j =>
      dicePairSim (vocabulary ["ab", "x", "y"])
        (["ab", "x", "y"].getD i "") (["ab", "x", "y"].getD j "")) 3 2 =
      none := by
    rw [pairAggregateOpt_eq_sum, hs2, if_neg]
    intro hforall
    have h1 := hforall 1 (by decide)
    simp [g1, g2, hy_x] at h1
  have hr3 : List.range 3 = [0, 1, 2] := rfl
  have hps : pairwiseScoresOpt (fun i j =>
      dicePairSim (vocabulary ["ab", "x", "y"])
        (["ab", "x", "y"].getD i "") (["ab", "x", "y"].getD j "")) 3 =
      [some 0, none, none] := by
    rw [pairwiseScoresOpt, hr3, List.map_cons, List.map_cons, List.map_cons,
      List.map_nil, hagg0, hagg1, hagg2]
  have hlen3 : (["ab", "x", "y"] : List String).length = 3 := rfl
  have hlent : ([1, 1, 1] : List ℚ).length = 3 := rfl
  have hjw0 : (calculate_jaro_winkler_scores (fun _ _ => (0 : ℚ))
      ["ab", "x", "y"]).getD 0 0 = 0 := by
    rw [calculate_jaro_winkler_scores, hlen3,
      pairwiseScores_getD _ (by norm_num), pairAggregate_eq_sum]
    simp
  have hrat0 : (calculate_ratcliff_obershelp_scores (fun _ _ => (0 : ℚ))
      ["ab", "x", "y"]).getD 0 0 = 0 := by
    rw [calculate_ratcliff_obershelp_scores, hlen3,
      pairwiseScores_getD _ (by norm_num), pairAggregate_eq_sum]
    simp
  rw [score_miner_of_vocab _ _ _ _ _ (by decide)]
  simp only [hlent, hlen3, hr3, List.map_cons, List.map_nil, hps,
    List.getD_cons_zero, List.getD_cons_succ, Option.map_some',
    Option.map_none']
  rw [hjw0, hrat0]
  norm_num

/-- C10 (amended): on a successful scoring run with positive latencies, the
external similarity measures non-negative (their documented contracts), and
every surviving answer contributing at least one character bigram after the
vectorizer's preprocessing (lowercasing and whitespace collapsing), every
score in the returned dict is a number and strictly positive, and any
non-empty kept score set obtained from the NaN-free dict by
`cut_to_max_allowed_weights` has strictly positive total.  Without the
bigram condition a returned score can be NaN (see the counterexample), and
a NaN score is not submitted either: it aborts the round at
`int(score * 1000 / scores)`. -/
theorem score_miner_scores_pos (jw rat : String → String → ℚ)
    (res : List String) (uids : List Nat) (times : List ℚ)
    (hjw : ∀ a b, 0 ≤ jw a b) (hrat : ∀ a b, 0 ≤ rat a b)
    (ht : ∀ t ∈ times, 0 < t) (hlen : times.length = res.length)
    (hbg : ∀ s ∈ res, bigramList s ≠ [])
    (m : List (Nat × Option ℚ))
    (hok : score_miner jw rat res uids times = Except.ok m) :
    (∀ p ∈ m, ∃ q, p.2 = some q ∧ 0 < q) ∧
    (∀ sd, denanScores m = Except.ok sd →
      ∀ k, cut_to_max_allowed_weights sd k ≠ [] →
        0 < ((cut_to_max_allowed_weights sd k).map Prod.snd).sum) := by
  have hv : ¬ vocabulary res = ∅ := by
    cases res with
    | nil =>
      exact absurd hok (by
        simp [score_miner, calculate_dice_similarity_scores, vocabulary,
          Except.map])
    | cons r rs =>
      intro hemp
      obtain ⟨g, hg⟩ := List.exists_mem_of_ne_nil _ (hbg r (by simp))
      have hgv : g ∈ vocabulary (r :: rs) :=
        mem_vocabulary_of_mem (by simp) hg
      rw [hemp] at hgv
      exact absurd hgv (Finset.not_mem_empty g)
  have hmemD : ∀ j, j < res.length → res.getD j "" ∈ res := by
    intro j hj
    rw [List.getD_eq_getElem _ _ hj]
    exact List.getElem_mem hj
  have hpos : ∀ p ∈ m, ∃ q, p.2 = some q ∧ 0 < q := by
    rw [score_miner_of_vocab jw rat res uids times hv] at hok
    simp only [Except.ok.injEq] at hok
    subst hok
    intro p hp
    obtain ⟨i, hi, rfl⟩ := List.mem_map.mp hp
    have hit : i < times.length := List.mem_range.mp hi
    have hir : i < res.length := by
      rw [← hlen]
      exact hit
    have hval : ∀ j, j < res.length → ∃ s,
        dicePairSim (vocabulary res) (res.getD i "") (res.getD j "") =
          some s ∧ 0 ≤ s := by
      intro j hj
      exact dicePairSim_defined_nonneg (hbg _ (hmemD i hir))
        (fun g hg => mem_vocabulary_of_mem (hmemD i hir) hg)
    have hcond : ∀ j ∈ Finset.range res.length \ {i}, ((fun i j =>
        dicePairSim (vocabulary res) (res.getD i "") (res.getD j "")) i
          j).isSome := by
      intro j hj
      have hjr : j < res.length :=
        Finset.mem_range.mp (Finset.mem_sdiff.mp hj).1
      obtain ⟨s, hs, _⟩ := hval j hjr
      simp only [hs]
      rfl
    have hdice := pairwiseScoresOpt_getD (fun i j =>
      dicePairSim (vocabulary res) (res.getD i "") (res.getD j "")) hir
    rw [hdice, pairAggregateOpt_eq_sum, if_pos hcond, Option.map_some']
    refine ⟨_, rfl, ?_⟩
    have h1 : 0 ≤ (calculate_jaro_winkler_scores jw res).getD i 0 := by
      rw [calculate_jaro_winkler_scores]
      exact pairwiseScores_getD_nonneg _ _ _ (fun j => hjw _ _)
    have h3 : 0 ≤ (calculate_ratcliff_obershelp_scores rat res).getD i 0 := by
      rw [calculate_ratcliff_obershelp_scores]
      exact pairwiseScores_getD_nonneg _ _ _ (fun j => hrat _ _)
    have h2 : 0 ≤ ∑ j ∈ Finset.range res.length \ {i}, ((fun i j =>
        dicePairSim (vocabulary res) (res.getD i "") (res.getD j "")) i
          j).getD 0 * (1 / 10) := by
      refine Finset.sum_nonneg fun j hj => ?_
      have hjr : j < res.length :=
        Finset.mem_range.mp (Finset.mem_sdiff.mp hj).1
      obtain ⟨s, hs, hs0⟩ := hval j hjr
      have hgd : ((fun i j => dicePairSim (vocabulary res) (res.getD i "")
          (res.getD j "")) i j).getD 0 = s := by
        simp only [hs]
        rfl
      rw [hgd]
      exact mul_nonneg hs0 (by norm_num)
    have htmax : (0 : ℚ) < max (times.getD i 0) 1 :=
      lt_of_lt_of_le one_pos (le_max_right _ _)
    have hlat : (0 : ℚ) < (1 / max (times.getD i 0) 1) * (2 / 10) :=
      mul_pos (div_pos one_pos htmax) (by norm_num)
    have hagg : (0 : ℚ) ≤ ((calculate_jaro_winkler_scores jw res).getD i 0 +
        (∑ j ∈ Finset.range res.length \ {i}, ((fun i j =>
          dicePairSim (vocabulary res) (res.getD i "") (res.getD j "")) i
            j).getD 0 * (1 / 10)) +
        (calculate_ratcliff_obershelp_scores rat res).getD i 0) / 3 *
        (8 / 10) := by
      have := add_nonneg (add_nonneg h1 h2) h3
      positivity
    exact add_pos_of_nonneg_of_pos hagg hlat
  refine ⟨hpos, fun sd hsd k hne => ?_⟩
  refine List.sum_pos _ (fun x hx => ?_) ?_
  · obtain ⟨p, hp, rfl⟩ := List.mem_map.mp hx
    have hmem := denanScores_mem hsd p (mem_of_mem_cut hp)
    obtain ⟨q, hq, hq0⟩ := hpos _ hmem
    have hpq : p.2 = q := by simpa using hq
    rw [hpq]
    exact hq0
  · intro hnil
    exact hne (by simpa using hnil)

/-- C10 witness: the amended statement at one peer answering "ab" (uid 5,
latency 2 seconds): the single returned score is the number `1/10`, and it
is strictly positive. -/
theorem score_miner_scores_pos_witness :
    ∃ q, (((5 : Nat), some ((1 : ℚ) / 10)) : Nat × Option ℚ).2 = some q ∧
      0 < q := by
  have hok : score_miner (fun _ _ => (0 : ℚ)) (fun _ _ => 0) ["ab"] [5] [2] =
      Except.ok [((5 : Nat), some ((1 : ℚ) / 10))] := by
    rw [score_miner_of_vocab _ _ _ _ _ (by decide)]
    norm_num [List.range_succ, pairwiseScores, pairAggregate,
      pairwiseScoresOpt, pairAggregateOpt,
      calculate_jaro_winkler_scores, calculate_ratcliff_obershelp_scores]
  have hbg : ∀ s ∈ ["ab"], bigramList s ≠ [] := by
    intro s hs
    rw [List.mem_singleton] at hs
    subst hs
    decide
  have ht : ∀ t ∈ ([2] : List ℚ), 0 < t := by
    intro t htm
    rw [List.mem_singleton] at htm
    subst htm
    norm_num
  exact (score_miner_scores_pos (fun _ _ => (0 : ℚ)) (fun _ _ => 0)
    ["ab"] [5] [2] (fun _ _ => le_refl 0) (fun _ _ => le_refl 0)
    ht rfl hbg _ hok).1 _ (by simp)

end ComtensorValidator
